import Mathlib

/-!
Verification development for the task-execution core: a bounded-concurrency
worker pool with exponential-backoff retry (`Tasker`), a paginated batch
driver with timestamp-cutoff sweeps (`ModeA`), and a claim-based continuous
driver (`ModeB`).  Durations are modelled in nanoseconds as integers
(Go's `time.Duration` is an `int64`); float64 jitter factors and random
samples are modelled as exact rationals, with the `float64 → Duration`
conversion modelled as truncation toward zero.
-/

namespace Tasker

/-- Retry policy, mirroring the Go `RetryPolicy` struct: `MaxAttempts int`,
`BaseDelay time.Duration`, `MaxDelay time.Duration`, `Jitter float64`. -/
structure RetryPolicy where
  MaxAttempts : Int
  BaseDelay : Int
  MaxDelay : Int
  Jitter : ℚ
deriving DecidableEq, Repr

/-- `time.Millisecond` in nanoseconds. -/
def millisecond : Int := 1000000

/-- Go's `time.Duration(f)` conversion from `float64`: truncation toward zero. -/
def ratTrunc (q : ℚ) : Int := q.num.tdiv q.den

/-- Mirrors `Manager.applyJitter`: if the factor is outside `(0, 1]` the delay
is returned unchanged; otherwise `d + time.Duration(float64(d)*factor*rng.Float64())`
with the float-to-duration conversion truncating toward zero.
`r` is the sample drawn from the mutex-guarded RNG, a value in `[0, 1)`. -/
def applyJitter (d : Int) (factor : ℚ) (r : ℚ) : Int :=
  if factor ≤ 0 ∨ 1 < factor then d
  else d + ratTrunc ((d : ℚ) * factor * r)

/-- One submission's retry loop (`Manager.execute`), as a fuel-indexed state
machine.  `succ a` tells whether the callable's `a`-th invocation returns a
nil error; `cancelled k` tells whether `m.ctx.Err() != nil` is observed at the
top of the loop iteration entered with `attempts = k` (cancellation during the
backoff wait is folded into the next loop-top observation: it produces the same
attempt count and the same recorded waits); `r a` is the RNG sample used for
the wait computed after failed attempt `a`.  Returns the final value of the
`attempts` counter together with the list of computed backoff waits, or `none`
if the fuel ran out. -/
def executeGo (p : RetryPolicy) (succ : Nat → Bool) (cancelled : Nat → Bool)
    (r : Nat → ℚ) : Nat → Nat → Int → List Int → Option (Nat × List Int)
  | 0, _, _, _ => none
  | fuel + 1, attempts, delay, waits =>
    if cancelled attempts then some (attempts, waits)
    else
      let a := attempts + 1
      if succ a then some (a, waits)
      else if 0 < p.MaxAttempts ∧ p.MaxAttempts ≤ (a : Int) then some (a, waits)
      else
        let wait := applyJitter delay p.Jitter (r a)
        let d2 := delay * 2
        let delay2 := if 0 < p.MaxDelay ∧ p.MaxDelay < d2 then p.MaxDelay else d2
        executeGo p succ cancelled r fuel a delay2 (waits ++ [wait])

/-- `Manager.execute`: initialises `delay = BaseDelay`, defaulting to one
millisecond only when `BaseDelay == 0`, then runs the retry loop. -/
def execute (p : RetryPolicy) (succ : Nat → Bool) (cancelled : Nat → Bool)
    (r : Nat → ℚ) (fuel : Nat) : Option (Nat × List Int) :=
  executeGo p succ cancelled r fuel 0
    (if p.BaseDelay = 0 then millisecond else p.BaseDelay) []

/-- The effective initial delay of `execute`. -/
def initialDelay (p : RetryPolicy) : Int :=
  if p.BaseDelay = 0 then millisecond else p.BaseDelay

/-- `Manager.Submit`'s `select` over the two communications
`<-m.ctx.Done()` (body: `return false`) and `m.tasks <- submission`
(body: `return true`).  Per the Go language specification, when several
communications can proceed one is chosen uniformly pseudo-randomly;
`pick = true` stands for choosing the channel send.  `doneReady` holds when
the internal token is cancelled; `handOffReady` holds when some worker can
complete the rendezvous.  `none` means the call blocks. -/
def SubmitSelect (doneReady handOffReady pick : Bool) : Option Bool :=
  if doneReady ∧ handOffReady then some pick
  else if doneReady then some false
  else if handOffReady then some true
  else none

/-- `Manager.TrySubmit`'s `select`: same two communications plus a `default`
case (body: `return false`), so the call never blocks. -/
def TrySubmitSelect (doneReady handOffReady pick : Bool) : Bool :=
  if doneReady ∧ handOffReady then pick
  else if doneReady then false
  else if handOffReady then true
  else false

/-- Abstract view of a `Manager`'s lifecycle state: whether the internal
token has been cancelled and how many worker goroutines are still running. -/
structure ManagerState where
  cancelled : Bool
  workersRunning : Nat
deriving DecidableEq, Repr

/-- `Manager.Shutdown`: `m.cancel()` (idempotent cancellation of the internal
token) followed by `m.wg.Wait()`, which returns only once every worker
goroutine has exited. -/
def Shutdown (_ : ManagerState) : ManagerState :=
  { cancelled := true, workersRunning := 0 }

end Tasker

namespace ModeA

/-- The bounded-sweep `Document` (ObjectIDs modelled as naturals, `time.Time`
as an integer timestamp, plus the opaque payload). -/
structure Document where
  ID : Nat
  CreatedAt : Int
  Data : String
deriving DecidableEq, Repr

/-- The descending `(createdAt, _id)` sort order used by `fetchBatch`
(`{createdAt: -1, _id: -1}`): `before p d` holds when `p` sorts strictly
before `d`, i.e. `d.createdAt < p.createdAt` or they tie on `createdAt` and
`d._id < p._id`.  This is also exactly the cursor predicate of the
second-and-later page filters. -/
def before (p d : Document) : Prop :=
  d.CreatedAt < p.CreatedAt ∨ (d.CreatedAt = p.CreatedAt ∧ d.ID < p.ID)

instance : DecidablePred fun q : Document × Document => before q.1 q.2 := by
  intro q; unfold before; infer_instance

instance (p d : Document) : Decidable (before p d) := by
  unfold before; infer_instance

/-- Non-strict boolean comparator for the descending `(createdAt, _id)` sort. -/
def descLe (a b : Document) : Bool :=
  decide (b.CreatedAt < a.CreatedAt) ||
    (decide (b.CreatedAt = a.CreatedAt) && decide (b.ID ≤ a.ID))

/-- The store's sort step for `find` per the interface contract:
sort the matching documents descending by `(createdAt, _id)`. -/
def sortDesc (l : List Document) : List Document :=
  l.mergeSort descLe

/-- The abstract store's `find(filter, sort, limit)`: filter, sort descending
by `(createdAt, _id)`, and return at most `limit` documents. -/
def find (coll : List Document) (pred : Document → Bool) (limit : Nat) :
    List Document :=
  (sortDesc (coll.filter pred)).take limit

/-- `BatchProcessor.fetchBatch`: the first page filters on
`createdAt < cutoff`; subsequent pages use the compound cursor filter
`createdAt < lastTime OR (createdAt == lastTime AND _id < lastID)`. -/
def fetchBatch (coll : List Document) (cutoff lastTime : Int) (lastID : Nat)
    (firstBatch : Bool) (batchSize : Nat) : List Document :=
  if firstBatch then
    find coll (fun d => decide (d.CreatedAt < cutoff)) batchSize
  else
    find coll
      (fun d =>
        decide (d.CreatedAt < lastTime) ||
          (decide (d.CreatedAt = lastTime) && decide (d.ID < lastID)))
      batchSize

/-- `NewBatchProcessor`'s coercion of the page size: below 1 becomes 100. -/
def effectiveBatchSize (batchSize : Int) : Nat :=
  if batchSize < 1 then 100 else batchSize.toNat

/-- The retry policy `RetryPolicy{MaxAttempts: 1}` used for every page
submission (remaining fields are Go zero values). -/
def pagePolicy : Tasker.RetryPolicy :=
  { MaxAttempts := 1, BaseDelay := 0, MaxDelay := 0, Jitter := 0 }

/-- The loop of `ProcessBefore`, fuel-indexed.  `fetch firstBatch lastTime
lastID` is the store's (possibly failing) answer to `fetchBatch`; `accept k`
is the boolean returned by the `k`-th `manager.Submit` (`false` when the
scheduler is Closed).  State: the `firstBatch` flag, the `(lastTime, lastID)`
cursor, the submission index `k`, the running `total`, and the list of
accepted submissions (page, policy).  Returns `(total, submissions, error)`,
mirroring `return total, err` / `return total, nil`. -/
def pbLoop (fetch : Bool → Int → Nat → Except String (List Document))
    (batchSize : Nat) (accept : Nat → Bool) :
    Nat → Bool → Int → Nat → Nat → Nat →
      List (List Document × Tasker.RetryPolicy) →
      Nat × List (List Document × Tasker.RetryPolicy) × Option String
  | 0, _, _, _, _, total, subs => (total, subs, none)
  | fuel + 1, firstBatch, lastTime, lastID, k, total, subs =>
    match fetch firstBatch lastTime lastID with
    | .error e => (total, subs, some e)
    | .ok batch =>
      if batch.isEmpty then (total, subs, none)
      else
        let last := batch.getLastD ⟨0, 0, ""⟩
        if accept k then
          let total2 := total + batch.length
          let subs2 := subs ++ [(batch, pagePolicy)]
          if batch.length < batchSize then (total2, subs2, none)
          else
            pbLoop fetch batchSize accept fuel false last.CreatedAt last.ID
              (k + 1) total2 subs2
        else (total, subs, none)

/-- `BatchProcessor.ProcessBefore` over the abstract store of the interface
contract (whose `find` always succeeds), with the scheduler's `Submit`
answers given by `accept`.  The initial cursor carries the Go zero values;
the fuel `coll.length + 1` is enough for the loop to reach its `break`
(each recursive call consumes at least one document). -/
def ProcessBefore (coll : List Document) (cutoff : Int) (batchSize : Int)
    (accept : Nat → Bool) :
    Nat × List (List Document × Tasker.RetryPolicy) × Option String :=
  pbLoop
    (fun firstBatch lastTime lastID =>
      .ok (fetchBatch coll cutoff lastTime lastID firstBatch
            (effectiveBatchSize batchSize)))
    (effectiveBatchSize batchSize) accept (coll.length + 1) true 0 0 0 0 []

end ModeA

namespace ModeB

/-- The claim-driver `Document`: `_id` is a string, `createdAt` an `int64`
(milliseconds), plus the opaque payload. -/
structure Document where
  ID : String
  CreatedAt : Int
  Data : String
deriving DecidableEq, Repr

/-- A collection entry: the document together with its optional `_claim`
attribute.  `claim = none` models the attribute being absent; `$set` with any
value (BSON null included) makes it present, so the claim value type `α` is
arbitrary and may itself contain a null-like value. -/
structure StoredDoc (α : Type) where
  doc : Document
  claim : Option α
deriving DecidableEq, Repr

/-- One `UpdateOneModel` of the claim bulk write, applied to one stored
document: filter `{_id: u.1, _claim: {$exists: false}}`, update
`{$set: {_claim: u.2}}`.  A document whose `_id` differs or whose claim
attribute is already present is left untouched. -/
def stepClaim {α : Type} (u : String × α) (s : StoredDoc α) : StoredDoc α :=
  if s.doc.ID = u.1 ∧ s.claim.isNone then { s with claim := some u.2 } else s

/-- The effect of one `UpdateOneModel` on the collection.  (Assuming the
usual `_id` uniqueness, at most one entry matches the filter, so updating
every matching entry coincides with `UpdateOne`.) -/
def applyUpdate {α : Type} (store : List (StoredDoc α)) (u : String × α) :
    List (StoredDoc α) :=
  store.map (stepClaim u)

/-- The unordered claim bulk write: apply every update model. -/
def bulkWrite {α : Type} (store : List (StoredDoc α))
    (updates : List (String × α)) : List (StoredDoc α) :=
  updates.foldl applyUpdate store

/-- The cumulative effect of a list of claim update models on a single
stored document (`bulkWrite` acts entrywise, see `bulkWrite_eq_map`). -/
def claimAfter {α : Type} (s : StoredDoc α) (updates : List (String × α)) :
    StoredDoc α :=
  updates.foldl (fun t u => stepClaim u t) s

/-- The claim-filtered page fetch of `Run`: documents whose `_claim`
attribute is absent (further constrained by `createdAt < cutoff` when the
optional cutoff is configured), limited to the page size.  The store returns
them in collection order. -/
def runFind {α : Type} (store : List (StoredDoc α)) (cutoff : Option Int)
    (batchSize : Nat) : List Document :=
  ((store.filter fun s =>
      s.claim.isNone &&
        match cutoff with
        | some c => decide (s.doc.CreatedAt < c)
        | none => true).take batchSize).map (fun s => s.doc)

/-- `NewBatchProcessor`'s page-size coercion (Mode B constructor): below 1
becomes 100. -/
def effectiveBatchSize (batchSize : Int) : Nat :=
  if batchSize < 1 then 100 else batchSize.toNat

/-- The per-document task closure submitted by `Run`: it invokes the user
callable, sends `(d.ID, result)` on the results channel, and returns `nil`
to the scheduler.  The value is the recorded claim document paired with the
error the closure returns to the worker. -/
def taskBody {α : Type} (processFn : Document → α) (d : Document) :
    (String × α) × Option String :=
  ((d.ID, processFn d), none)

/-- The loop of Mode B `Run`, fuel-indexed, for a single driver whose every
`find` and `BulkWrite` succeeds.  `cancelled k` is the loop-top
`ctx.Done()` observation of iteration `k`.  Each iteration fetches a
claim-less page; if empty, `Run` returns `nil` (modelled `true`); otherwise
every document of the page is submitted, every task runs its callable once
and records `(d.ID, processFn d)`, the barrier releases, and the claim bulk
write is applied.  Returns `(finished-normally?, final store, number of user
callable invocations)`, or `none` when the fuel runs out. -/
def runLoop {α : Type} (processFn : Document → α) (cutoff : Option Int)
    (batchSize : Nat) (cancelled : Nat → Bool) :
    Nat → Nat → List (StoredDoc α) → Nat →
      Option (Bool × List (StoredDoc α) × Nat)
  | 0, _, _, _ => none
  | fuel + 1, k, store, invocations =>
    if cancelled k then some (false, store, invocations)
    else
      let page := runFind store cutoff batchSize
      if page.isEmpty then some (true, store, invocations)
      else
        let updates := page.map fun d => (taskBody processFn d).1
        runLoop processFn cutoff batchSize cancelled fuel (k + 1)
          (bulkWrite store updates) (invocations + page.length)

/-- `BatchProcessor.Run` (claim protocol), from the given store state. -/
def Run {α : Type} (processFn : Document → α) (cutoff : Option Int)
    (batchSize : Int) (cancelled : Nat → Bool) (store : List (StoredDoc α))
    (fuel : Nat) : Option (Bool × List (StoredDoc α) × Nat) :=
  runLoop processFn cutoff (effectiveBatchSize batchSize) cancelled fuel 0
    store 0

/-- The number of documents in the store whose claim attribute is absent. -/
def claimlessCount {α : Type} (store : List (StoredDoc α)) : Nat :=
  (store.filter fun s => s.claim.isNone).length

/-- Mode B page-barrier accounting, from `Run`: `wg.Add(1)` runs once per
document before `Submit`, while `wg.Done()` runs only via the `defer` placed
inside the task closure — that is, only when the worker actually enters the
callable.  `entered` records, for each submitted document of a page, whether
its callable was entered (`false` when `Submit` was rejected by a closed
scheduler — its boolean result is ignored by `Run` — or when the hand-off
succeeded but `execute` observed cancellation before invoking the task).
The value is the WaitGroup counter once all activity has ceased; `wg.Wait`
returns only when it is zero. -/
def pageBarrierCount (entered : List Bool) : Nat :=
  entered.length - (entered.filter fun b => b).length

end ModeB

/-! Scheduler lemmas -/

lemma executeGo_fail_count (K : Nat) (p : Tasker.RetryPolicy)
    (hp : p.MaxAttempts = (K : Int)) (r : Nat → ℚ) :
    ∀ fuel a delay ws, a < K → K ≤ a + fuel →
      ∃ ws2, Tasker.executeGo p (fun _ => false) (fun _ => false) r fuel a delay ws
        = some (K, ws2) := by
  intro fuel
  induction fuel with
  | zero => intro a delay ws ha hf; omega
  | succ f ih =>
    intro a delay ws ha hf
    rw [Tasker.executeGo]
    simp only [Bool.false_eq_true, if_false]
    by_cases hlast : K ≤ a + 1
    · have hKa : a + 1 = K := by omega
      rw [if_pos]
      · exact ⟨ws, by rw [hKa]⟩
      · refine ⟨by rw [hp]; exact_mod_cast show 0 < K by omega, ?_⟩
        rw [hp]; exact_mod_cast hlast
    · rw [if_neg]
      · exact ih (a + 1) _ _ (by omega) (by omega)
      · rintro ⟨-, hle⟩
        rw [hp] at hle
        exact hlast (by exact_mod_cast hle)

lemma executeGo_waits_shape (p : Tasker.RetryPolicy) (succ cancelled : Nat → Bool)
    (r : Nat → ℚ) :
    ∀ fuel a delay acc n ws,
      Tasker.executeGo p succ cancelled r fuel a delay acc = some (n, ws) →
      ws = acc ∨
        ∃ tail, ws = acc ++ Tasker.applyJitter delay p.Jitter (r (a + 1)) :: tail := by
  intro fuel
  induction fuel with
  | zero => intro a delay acc n ws h; exact absurd h (by simp [Tasker.executeGo])
  | succ f ih =>
    intro a delay acc n ws h
    rw [Tasker.executeGo] at h
    by_cases hc : cancelled a
    · rw [if_pos hc] at h
      exact Or.inl (congrArg Prod.snd (Option.some.inj h)).symm
    · rw [if_neg (by simp [hc])] at h
      by_cases hs : succ (a + 1)
      · rw [if_pos hs] at h
        exact Or.inl (congrArg Prod.snd (Option.some.inj h)).symm
      · rw [if_neg (by simp [hs])] at h
        by_cases hm : 0 < p.MaxAttempts ∧ p.MaxAttempts ≤ ((a + 1 : Nat) : Int)
        · rw [if_pos hm] at h
          exact Or.inl ((congrArg Prod.snd (Option.some.inj h)).symm)
        · rw [if_neg hm] at h
          rcases ih (a + 1) _ _ n ws h with h1 | ⟨tail, htail⟩
          · exact Or.inr ⟨[], by rw [h1]⟩
          · exact Or.inr ⟨Tasker.applyJitter
              (if 0 < p.MaxDelay ∧ p.MaxDelay < delay * 2 then p.MaxDelay
                else delay * 2) p.Jitter (r (a + 1 + 1)) :: tail,
              by rw [htail, List.append_assoc]; rfl⟩

lemma applyJitter_disabled (d : Int) (factor rs : ℚ)
    (h : factor ≤ 0 ∨ 1 < factor) : Tasker.applyJitter d factor rs = d := by
  rw [Tasker.applyJitter, if_pos h]

/-! Claim bulk-write lemmas -/

lemma stepClaim_of_some {α : Type} (u : String × α) (s : ModeB.StoredDoc α)
    (v : α) (h : s.claim = some v) : ModeB.stepClaim u s = s := by
  rw [ModeB.stepClaim, if_neg]
  rintro ⟨-, habs⟩
  rw [h] at habs
  simp at habs

lemma claimAfter_of_some {α : Type} (us : List (String × α)) :
    ∀ (s : ModeB.StoredDoc α) (v : α), s.claim = some v →
      ModeB.claimAfter s us = s := by
  induction us with
  | nil => intro s v _; rfl
  | cons u us ih =>
    intro s v h
    rw [ModeB.claimAfter, List.foldl_cons, stepClaim_of_some u s v h]
    exact ih s v h

lemma stepClaim_of_ne {α : Type} (u : String × α) (s : ModeB.StoredDoc α)
    (h : u.1 ≠ s.doc.ID) : ModeB.stepClaim u s = s := by
  rw [ModeB.stepClaim, if_neg]
  rintro ⟨heq, -⟩
  exact h heq.symm

lemma bulkWrite_map {α : Type} :
    ∀ (us : List (String × α)) (store : List (ModeB.StoredDoc α)),
      ModeB.bulkWrite store us = store.map (fun s => ModeB.claimAfter s us) := by
  intro us
  induction us with
  | nil => intro store; simp [ModeB.bulkWrite, ModeB.claimAfter]
  | cons u us ih =>
    intro store
    rw [ModeB.bulkWrite, List.foldl_cons]
    rw [show List.foldl ModeB.applyUpdate (ModeB.applyUpdate store u) us
        = ModeB.bulkWrite (ModeB.applyUpdate store u) us from rfl, ih]
    rw [ModeB.applyUpdate, List.map_map]
    rfl

/-! Claim theorems for the scheduler -/

/-- C3: for every retry policy with `MaxAttempts = K ≥ 1`, a callable that
always returns a failure, with the scheduler's token never cancelled, is
invoked exactly `K` times (the returned counter is the number of
invocations); in particular `MaxAttempts = 1` gives exactly one invocation. -/
theorem execute_always_fail_invocations (K : Nat) (hK : 1 ≤ K)
    (p : Tasker.RetryPolicy) (hp : p.MaxAttempts = (K : Int)) (r : Nat → ℚ)
    (fuel : Nat) (hf : K ≤ fuel) :
    ∃ ws, Tasker.execute p (fun _ => false) (fun _ => false) r fuel
      = some (K, ws) := by
  exact executeGo_fail_count K p hp r fuel 0 _ [] hK (by omega)

/-- C3 witness: `MaxAttempts = 4` with an always-failing callable yields
exactly 4 invocations. -/
theorem execute_always_fail_invocations_witness :
    ∃ ws, Tasker.execute ⟨4, 0, 0, 0⟩ (fun _ => false) (fun _ => false)
      (fun _ => 0) 10 = some (4, ws) :=
  execute_always_fail_invocations 4 (by decide) ⟨4, 0, 0, 0⟩ (by decide)
    (fun _ => 0) 10 (by decide)

/-- C6 (amended): `execute` initialises the delay to `BaseDelay`, defaulting
to 1 ms only when `BaseDelay` is exactly zero; hence with jitter disabled the
first inter-attempt wait equals `BaseDelay` whenever `BaseDelay ≠ 0`, and
equals 1 ms only for `BaseDelay = 0`. -/
theorem execute_first_wait_initial_delay (p : Tasker.RetryPolicy)
    (hjit : p.Jitter ≤ 0 ∨ 1 < p.Jitter) (succ cancelled : Nat → Bool)
    (r : Nat → ℚ) (fuel n : Nat) (w : Int) (ws : List Int)
    (h : Tasker.execute p succ cancelled r fuel = some (n, w :: ws)) :
    w = Tasker.initialDelay p := by
  rcases executeGo_waits_shape p succ cancelled r fuel 0 _ [] n _ h with h1 | ⟨tail, htail⟩
  · exact absurd h1 (by simp)
  · rw [List.nil_append] at htail
    have hw : w = Tasker.applyJitter (Tasker.initialDelay p) p.Jitter (r 1) :=
      (List.cons.injEq .. ▸ htail).1

    rw [hw, applyJitter_disabled _ _ _ hjit]

/-- C6 witness: with `BaseDelay = 2 ms` and jitter disabled the first wait is
exactly `BaseDelay`. -/
theorem execute_first_wait_initial_delay_witness :
    (2000000 : Int) = Tasker.initialDelay ⟨3, 2000000, 0, 0⟩ :=
  execute_first_wait_initial_delay ⟨3, 2000000, 0, 0⟩ (Or.inl (by decide))
    (fun _ => false) (fun _ => false) (fun _ => 0) 10 3 2000000 [4000000]
    (by decide)

/-- C6 counterexample: with `BaseDelay = 0.5 ms` (non-zero but below 1 ms)
and jitter disabled, the first inter-attempt wait is 0.5 ms, not the 1 ms the
claim asserts for every base delay below 1 ms. -/
theorem initial_delay_counterexample :
    Tasker.execute ⟨2, 500000, 0, 0⟩ (fun _ => false) (fun _ => false)
        (fun _ => 0) 10 = some (2, [500000]) ∧
      (500000 : Int) ≠ Tasker.millisecond := by
  exact ⟨by decide, by decide⟩

/-- C7 (amended): once `Shutdown` has returned every worker has exited, so
the hand-off can never be ready: every subsequent `Submit` returns `false`
(whatever the select picks) and every `TrySubmit` returns `false`; a worker
that pulls a submission under a cancelled token returns from `execute`
without entering the callable (zero invocations, no waits); and `Shutdown`
is idempotent. -/
theorem shutdown_closed_scheduler :
    (∀ pick : Bool, Tasker.SubmitSelect true false pick = some false) ∧
    (∀ pick : Bool, Tasker.TrySubmitSelect true false pick = false) ∧
    (∀ (p : Tasker.RetryPolicy) (succ : Nat → Bool) (r : Nat → ℚ) (fuel : Nat),
      Tasker.execute p succ (fun _ => true) r (fuel + 1) = some (0, [])) ∧
    (∀ s : Tasker.ManagerState,
      Tasker.Shutdown (Tasker.Shutdown s) = Tasker.Shutdown s) := by
  refine ⟨by decide, by decide, fun p succ r fuel => ?_, fun s => rfl⟩
  rw [Tasker.execute, Tasker.executeGo, if_pos rfl]

/-- C7 counterexample: with the internal token already cancelled but a worker
still ready on the hand-off, the randomized `select` inside `Submit` may pick
the channel send, and `Submit` returns `true` — refuting "once the token is
cancelled, every subsequent `Submit` call returns `false`". -/
theorem submit_after_cancel_counterexample :
    Tasker.SubmitSelect true true true = some true ∧
    Tasker.SubmitSelect true true true ≠ some false := by decide

/-! Claim theorems for Mode B -/

/-- C2: the Mode B page barrier is decremented only by the `defer wg.Done()`
placed inside the task closure, so a submitted document whose callable is
never entered (`Submit` rejected by a closed scheduler — `Run` ignores its
boolean — or the task dropped by `execute`'s cancellation check before
invocation) never reports: the WaitGroup counter stays positive and the
barrier wait in `Run` never releases.  Evaluated at the failing input (one
submitted document whose callable is not entered). -/
theorem pageBarrier_missed_decrement :
    ModeB.pageBarrierCount [false] = 1 ∧
    ModeB.pageBarrierCount [false] ≠ 0 ∧
    ModeB.pageBarrierCount [true] = 0 := by decide

/-- C9: the per-document task closure always reports success (`nil`) to the
scheduler whatever the callable returns, and records a claim update for every
document whose callable completed (also when the callable's value models
`nil`); consequently a task whose callable always succeeds is invoked exactly
once by `execute` (no retry), whatever the retry policy. -/
theorem task_wrapper_always_succeeds :
    (∀ (α : Type) (processFn : ModeB.Document → α) (d : ModeB.Document),
      (ModeB.taskBody processFn d).2 = none) ∧
    (∀ (α : Type) (processFn : ModeB.Document → α) (page : List ModeB.Document)
      (d : ModeB.Document), d ∈ page →
      (d.ID, processFn d) ∈ page.map (fun e => (ModeB.taskBody processFn e).1)) ∧
    (∀ (p : Tasker.RetryPolicy) (cancelled : Nat → Bool) (r : Nat → ℚ) (fuel : Nat),
      cancelled 0 = false →
      Tasker.execute p (fun _ => true) cancelled r (fuel + 1) = some (1, [])) := by
  refine ⟨fun α f d => rfl, fun α f page d hd => List.mem_map.mpr ⟨d, hd, rfl⟩,
    fun p cancelled r fuel hc => ?_⟩
  rw [Tasker.execute, Tasker.executeGo, if_neg (by simp [hc]), if_pos rfl]

/-- C9 witness: a singleton page with a callable returning a `nil`-like
claim value. -/
theorem task_wrapper_always_succeeds_witness :
    ("a", (none : Option Nat)) ∈
      [(⟨"a", 0, ""⟩ : ModeB.Document)].map
        (fun e => (ModeB.taskBody (fun _ => (none : Option Nat)) e).1) := by
  have h := task_wrapper_always_succeeds.2.1 (Option Nat)
    (fun _ => (none : Option Nat)) [⟨"a", 0, ""⟩] ⟨"a", 0, ""⟩ (by simp)
  simpa using h

/-- C4: every claim update model carries the filter
`{_id: u.1, _claim: {$exists: false}}`, so (1) the bulk write acts entrywise
on the collection; (2) a document whose claim attribute is present is never
modified by any claim write; (3) across any concatenation of bulk writes the
first update targeting a claim-less document wins and sets its claim, all
later ones are no-ops; (4) consecutive bulk writes compose by concatenating
their update lists. -/
theorem claim_write_single_winner :
    (∀ (α : Type) (store : List (ModeB.StoredDoc α)) (us : List (String × α)),
      ModeB.bulkWrite store us = store.map (fun s => ModeB.claimAfter s us)) ∧
    (∀ (α : Type) (s : ModeB.StoredDoc α) (us : List (String × α)) (v : α),
      s.claim = some v → ModeB.claimAfter s us = s) ∧
    (∀ (α : Type) (s : ModeB.StoredDoc α) (us1 us2 : List (String × α))
      (v : α), s.claim = none → (∀ u ∈ us1, u.1 ≠ s.doc.ID) →
      ModeB.claimAfter s (us1 ++ (s.doc.ID, v) :: us2)
        = { s with claim := some v }) ∧
    (∀ (α : Type) (s : ModeB.StoredDoc α) (us vs : List (String × α)),
      ModeB.claimAfter s (us ++ vs)
        = ModeB.claimAfter (ModeB.claimAfter s us) vs) := by
  refine ⟨fun α store us => bulkWrite_map us store,
    fun α s us v h => claimAfter_of_some us s v h,
    fun α s us1 us2 v hnone hne => ?_,
    fun α s us vs => List.foldl_append ..⟩
  have h1 : ModeB.claimAfter s us1 = s := by
    clear hnone
    induction us1 with
    | nil => rfl
    | cons u us ih =>
      rw [ModeB.claimAfter, List.foldl_cons,
        stepClaim_of_ne u s (hne u (List.mem_cons_self u us))]
      exact ih (fun u hu => hne u (List.mem_cons_of_mem _ hu))
  rw [ModeB.claimAfter, List.foldl_append]
  rw [show List.foldl (fun t u => ModeB.stepClaim u t) s us1
      = ModeB.claimAfter s us1 from rfl, h1]
  rw [List.foldl_cons]
  have h2 : ModeB.stepClaim (s.doc.ID, v) s = { s with claim := some v } := by
    rw [ModeB.stepClaim, if_pos ⟨rfl, by rw [hnone]; rfl⟩]
  rw [h2]
  exact claimAfter_of_some us2 _ v rfl

/-- C4 witness: a two-update race on one claim-less document — the first
writer wins, the second write is a no-op. -/
theorem claim_write_single_winner_witness :
    ModeB.claimAfter (⟨⟨"a", 0, ""⟩, none⟩ : ModeB.StoredDoc Nat)
        ([] ++ ("a", 7) :: [("a", 9)])
      = ⟨⟨"a", 0, ""⟩, some 7⟩ :=
  claim_write_single_winner.2.2.1 Nat ⟨⟨"a", 0, ""⟩, none⟩ [] [("a", 9)] 7 rfl
    (fun u hu => absurd hu (List.not_mem_nil u))

/-! Backoff wait bounds -/

lemma ratTrunc_nonneg (q : ℚ) (h : 0 ≤ q) : 0 ≤ Tasker.ratTrunc q :=
  Int.tdiv_nonneg (Rat.num_nonneg.mpr h) (Int.ofNat_nonneg _)

lemma ratTrunc_le_self (q : ℚ) (h : 0 ≤ q) : (Tasker.ratTrunc q : ℚ) ≤ q := by
  have hden : (0 : Int) < (q.den : Int) := by exact_mod_cast q.den_pos
  have htd : Tasker.ratTrunc q = q.num / (q.den : Int) :=
    Int.tdiv_eq_ediv (Rat.num_nonneg.mpr h) hden.le
  have hmul : q.num / (q.den : Int) * (q.den : Int) ≤ q.num :=
    Int.ediv_mul_le q.num (by omega)
  have hqd : (0 : ℚ) < (q.den : ℚ) := by exact_mod_cast q.den_pos
  rw [htd]
  conv_rhs => rw [← Rat.num_div_den q]
  rw [le_div_iff₀ hqd]
  exact_mod_cast hmul

lemma applyJitter_lower (d : Int) (hd : 0 ≤ d) (factor rs : ℚ) (hrs : 0 ≤ rs) :
    d ≤ Tasker.applyJitter d factor rs := by
  rw [Tasker.applyJitter]
  split
  · exact le_refl d
  · rename_i hfac
    push_neg at hfac
    have hq : (0 : ℚ) ≤ (d : ℚ) * factor * rs := by
      have h1 : (0:ℚ) ≤ (d:ℚ) := by exact_mod_cast hd
      exact mul_nonneg (mul_nonneg h1 hfac.1.le) hrs
    have := ratTrunc_nonneg _ hq
    omega

lemma applyJitter_upper (d : Int) (hd : 0 ≤ d) (factor rs : ℚ)
    (hf0 : 0 < factor) (hf1 : factor ≤ 1) (hrs0 : 0 ≤ rs) (hrs1 : rs < 1) :
    (Tasker.applyJitter d factor rs : ℚ) ≤ (d : ℚ) * (1 + factor) := by
  rw [Tasker.applyJitter, if_neg (by push_neg; exact ⟨hf0, by linarith⟩)]
  have hdq : (0:ℚ) ≤ (d:ℚ) := by exact_mod_cast hd
  have hq : (0 : ℚ) ≤ (d : ℚ) * factor * rs :=
    mul_nonneg (mul_nonneg hdq hf0.le) hrs0
  have h1 : (Tasker.ratTrunc ((d:ℚ) * factor * rs) : ℚ) ≤ (d:ℚ) * factor * rs :=
    ratTrunc_le_self _ hq
  have h2 : (d:ℚ) * factor * rs ≤ (d:ℚ) * factor :=
    mul_le_of_le_one_right (mul_nonneg hdq hf0.le) hrs1.le
  push_cast
  nlinarith

lemma executeGo_waits_lower (p : Tasker.RetryPolicy) (succ cancelled : Nat → Bool)
    (r : Nat → ℚ) (hr : ∀ k, 0 ≤ r k)
    (hcond : p.MaxDelay = 0 ∨ p.BaseDelay ≤ p.MaxDelay) :
    ∀ fuel a delay acc n ws, 0 ≤ delay → p.BaseDelay ≤ delay →
      (∀ w ∈ acc, p.BaseDelay ≤ w) →
      Tasker.executeGo p succ cancelled r fuel a delay acc = some (n, ws) →
      ∀ w ∈ ws, p.BaseDelay ≤ w := by
  intro fuel
  induction fuel with
  | zero => intro a delay acc n ws _ _ _ h; exact absurd h (by simp [Tasker.executeGo])
  | succ f ih =>
    intro a delay acc n ws hd0 hdb hacc h
    rw [Tasker.executeGo] at h
    by_cases hc : cancelled a
    · rw [if_pos hc] at h
      have hws : acc = ws := congrArg Prod.snd (Option.some.inj h)
      rw [← hws]; exact hacc
    · rw [if_neg (by simp [hc])] at h
      by_cases hs : succ (a + 1)
      · rw [if_pos hs] at h
        have hws : acc = ws := congrArg Prod.snd (Option.some.inj h)
        rw [← hws]; exact hacc
      · rw [if_neg (by simp [hs])] at h
        by_cases hm : 0 < p.MaxAttempts ∧ p.MaxAttempts ≤ ((a + 1 : Nat) : Int)
        · rw [if_pos hm] at h
          have hws : acc = ws := congrArg Prod.snd (Option.some.inj h)
          rw [← hws]; exact hacc
        · rw [if_neg hm] at h
          refine ih (a + 1) _ _ n ws ?_ ?_ ?_ h
          · split
            · rename_i hsplit; omega
            · omega
          · split
            · rename_i hsplit; rcases hcond with h0 | hbm
              · omega
              · exact hbm
            · omega
          · intro w hw
            rcases List.mem_append.mp hw with hw1 | hw2
            · exact hacc w hw1
            · rw [List.mem_singleton.mp hw2]
              exact le_trans hdb (applyJitter_lower delay hd0 p.Jitter _ (hr _))

lemma executeGo_waits_upper (p : Tasker.RetryPolicy) (succ cancelled : Nat → Bool)
    (r : Nat → ℚ) (hr : ∀ k, 0 ≤ r k ∧ r k < 1)
    (hj0 : 0 < p.Jitter) (hj1 : p.Jitter ≤ 1) (hmd : 0 < p.MaxDelay)
    (M : Int) (hM : p.MaxDelay ≤ M) :
    ∀ fuel a delay acc n ws, 0 ≤ delay → delay ≤ M →
      (∀ w ∈ acc, (Int.cast w : ℚ) ≤ (M : ℚ) * (1 + p.Jitter)) →
      Tasker.executeGo p succ cancelled r fuel a delay acc = some (n, ws) →
      ∀ w ∈ ws, (Int.cast w : ℚ) ≤ (M : ℚ) * (1 + p.Jitter) := by
  intro fuel
  induction fuel with
  | zero => intro a delay acc n ws _ _ _ h; exact absurd h (by simp [Tasker.executeGo])
  | succ f ih =>
    intro a delay acc n ws hd0 hdM hacc h
    rw [Tasker.executeGo] at h
    by_cases hc : cancelled a
    · rw [if_pos hc] at h
      have hws : acc = ws := congrArg Prod.snd (Option.some.inj h)
      rw [← hws]; exact hacc
    · rw [if_neg (by simp [hc])] at h
      by_cases hs : succ (a + 1)
      · rw [if_pos hs] at h
        have hws : acc = ws := congrArg Prod.snd (Option.some.inj h)
        rw [← hws]; exact hacc
      · rw [if_neg (by simp [hs])] at h
        by_cases hm : 0 < p.MaxAttempts ∧ p.MaxAttempts ≤ ((a + 1 : Nat) : Int)
        · rw [if_pos hm] at h
          have hws : acc = ws := congrArg Prod.snd (Option.some.inj h)
          rw [← hws]; exact hacc
        · rw [if_neg hm] at h
          refine ih (a + 1) _ _ n ws ?_ ?_ ?_ h
          · split
            · rename_i hsplit; omega
            · omega
          · split
            · rename_i hsplit; exact hM
            · rename_i hsplit
              push_neg at hsplit
              exact le_trans (hsplit hmd) hM
          · intro w hw
            rcases List.mem_append.mp hw with hw1 | hw2
            · exact hacc w hw1
            · rw [List.mem_singleton.mp hw2]
              refine le_trans (applyJitter_upper delay hd0 p.Jitter (r (a + 1))
                hj0 hj1 (hr _).1 (hr _).2) ?_
              have hMq : (delay : ℚ) ≤ (M : ℚ) := by exact_mod_cast hdM
              have hjq : (0:ℚ) ≤ 1 + p.Jitter := by linarith
              exact mul_le_mul_of_nonneg_right hMq hjq


/-- C5 (amended): for every retry policy with non-negative delays and RNG
samples in `[0, 1)`: when `MaxDelay = 0` (no cap) or `MaxDelay ≥ BaseDelay`,
the inter-attempt waits are pointwise ≥ `BaseDelay`; and when jitter is in
`(0, 1]` and a cap `MaxDelay > 0` is set, the waits are pointwise
≤ `max(d₀, MaxDelay) * (1 + Jitter)` where `d₀` is the effective initial
delay (`BaseDelay`, or 1 ms when `BaseDelay = 0`).  (The original claim's
unconditional lower bound fails when `MaxDelay < BaseDelay`, and its upper
bound fails when `MaxDelay = 0`; see the counterexample.) -/
theorem retry_wait_bounds_amended (p : Tasker.RetryPolicy)
    (hbase : 0 ≤ p.BaseDelay) (hmax : 0 ≤ p.MaxDelay)
    (succ cancelled : Nat → Bool) (r : Nat → ℚ)
    (hr : ∀ k, 0 ≤ r k ∧ r k < 1) (fuel n : Nat) (ws : List Int)
    (h : Tasker.execute p succ cancelled r fuel = some (n, ws)) :
    ((p.MaxDelay = 0 ∨ p.BaseDelay ≤ p.MaxDelay) → ∀ w ∈ ws, p.BaseDelay ≤ w) ∧
    (0 < p.Jitter → p.Jitter ≤ 1 → 0 < p.MaxDelay → ∀ w ∈ ws,
      (Int.cast w : ℚ) ≤
        ((max (Tasker.initialDelay p) p.MaxDelay : Int) : ℚ) * (1 + p.Jitter)) := by
  rw [Tasker.execute] at h
  have hd0 : 0 ≤ Tasker.initialDelay p := by
    rw [Tasker.initialDelay]; split
    · rw [Tasker.millisecond]; omega
    · exact hbase
  have hinit : (if p.BaseDelay = 0 then Tasker.millisecond else p.BaseDelay)
      = Tasker.initialDelay p := rfl
  rw [hinit] at h
  constructor
  · intro hcond
    refine executeGo_waits_lower p succ cancelled r (fun k => (hr k).1) hcond
      fuel 0 _ [] n ws hd0 ?_ (by simp) h
    rw [Tasker.initialDelay]; split
    · rename_i h0; rw [h0, Tasker.millisecond]; omega
    · exact le_refl _
  · intro hj0 hj1 hmd
    exact executeGo_waits_upper p succ cancelled r hr hj0 hj1 hmd
      (max (Tasker.initialDelay p) p.MaxDelay) (le_max_right _ _) fuel 0 _ []
      n ws hd0 (le_max_left _ _) (by simp) h

/-- C5 witness: policy `⟨2, 4, 8, 0⟩` with RNG samples 0 — the single
inter-attempt wait is 4 and both amended bounds hold at it. -/
theorem retry_wait_bounds_amended_witness :
    (((⟨2, 4, 8, 0⟩ : Tasker.RetryPolicy).MaxDelay = 0 ∨
        (⟨2, 4, 8, 0⟩ : Tasker.RetryPolicy).BaseDelay ≤
          (⟨2, 4, 8, 0⟩ : Tasker.RetryPolicy).MaxDelay) →
      ∀ w ∈ [(4 : Int)], (⟨2, 4, 8, 0⟩ : Tasker.RetryPolicy).BaseDelay ≤ w) ∧
    (0 < (⟨2, 4, 8, 0⟩ : Tasker.RetryPolicy).Jitter →
      (⟨2, 4, 8, 0⟩ : Tasker.RetryPolicy).Jitter ≤ 1 →
      0 < (⟨2, 4, 8, 0⟩ : Tasker.RetryPolicy).MaxDelay →
      ∀ w ∈ [(4 : Int)],
        (Int.cast w : ℚ) ≤
          ((max (Tasker.initialDelay ⟨2, 4, 8, 0⟩)
              (⟨2, 4, 8, 0⟩ : Tasker.RetryPolicy).MaxDelay : Int) : ℚ) *
            (1 + (⟨2, 4, 8, 0⟩ : Tasker.RetryPolicy).Jitter)) :=
  retry_wait_bounds_amended ⟨2, 4, 8, 0⟩ (by decide) (by decide)
    (fun _ => false) (fun _ => false) (fun _ => 0)
    (fun k => ⟨le_refl 0, by norm_num⟩) 10 2 [4] (by decide)

/-- C5 counterexample: the claim fails as stated.  With policy
`(MaxAttempts, BaseDelay, MaxDelay, Jitter) = (3, 4, 1, 1)` (a cap below the
base delay, jitter 1 ∈ (0,1], RNG samples 0) the produced waits are `[4, 1]`
and the second wait 1 is below `BaseDelay = 4`, refuting the pointwise lower
bound; with policy `(4, 4, 0, 1)` (no cap) the waits are `[4, 8, 16]` and
the third wait 16 exceeds `max(BaseDelay, MaxDelay) * (1 + Jitter) = 8`,
refuting the pointwise upper bound. -/
theorem retry_wait_bounds_counterexample :
    (Tasker.execute ⟨3, 4, 1, 1⟩ (fun _ => false) (fun _ => false)
        (fun _ => 0) 10 = some (3, [4, 1]) ∧
      ¬ ((⟨3, 4, 1, 1⟩ : Tasker.RetryPolicy).BaseDelay ≤ (1 : Int))) ∧
    (Tasker.execute ⟨4, 4, 0, 1⟩ (fun _ => false) (fun _ => false)
        (fun _ => 0) 10 = some (4, [4, 8, 16]) ∧
      ¬ ((Int.cast (16 : Int) : ℚ) ≤
          ((max (⟨4, 4, 0, 1⟩ : Tasker.RetryPolicy).BaseDelay
              (⟨4, 4, 0, 1⟩ : Tasker.RetryPolicy).MaxDelay : Int) : ℚ) *
            (1 + (⟨4, 4, 0, 1⟩ : Tasker.RetryPolicy).Jitter))) := by
  refine ⟨⟨?_, by norm_num⟩, ⟨?_, by norm_num⟩⟩
  · norm_num [Tasker.execute, Tasker.executeGo, Tasker.applyJitter, Tasker.ratTrunc]
  · norm_num [Tasker.execute, Tasker.executeGo, Tasker.applyJitter, Tasker.ratTrunc]

/-! Mode B run-loop lemmas -/

lemma stepClaim_doc {α : Type} (u : String × α) (s : ModeB.StoredDoc α) :
    (ModeB.stepClaim u s).doc = s.doc := by
  rw [ModeB.stepClaim]; split <;> rfl

lemma claimAfter_doc {α : Type} (us : List (String × α)) :
    ∀ s : ModeB.StoredDoc α, (ModeB.claimAfter s us).doc = s.doc := by
  induction us with
  | nil => intro s; rfl
  | cons u us ih =>
    intro s
    rw [ModeB.claimAfter, List.foldl_cons]
    rw [show List.foldl (fun t u => ModeB.stepClaim u t) (ModeB.stepClaim u s) us
        = ModeB.claimAfter (ModeB.stepClaim u s) us from rfl]
    rw [ih (ModeB.stepClaim u s), stepClaim_doc]

lemma claimAfter_cons {α : Type} (u : String × α) (us : List (String × α))
    (s : ModeB.StoredDoc α) :
    ModeB.claimAfter s (u :: us) = ModeB.claimAfter (ModeB.stepClaim u s) us := rfl

lemma claimAfter_isSome_of_mem {α : Type} :
    ∀ (us : List (String × α)) (s : ModeB.StoredDoc α),
      (∃ u ∈ us, u.1 = s.doc.ID) → ((ModeB.claimAfter s us).claim).isSome := by
  intro us
  induction us with
  | nil => rintro s ⟨u, hu, -⟩; exact absurd hu (List.not_mem_nil u)
  | cons u us ih =>
    rintro s ⟨v, hv, hveq⟩
    rw [claimAfter_cons]
    cases hsc : (ModeB.stepClaim u s).claim with
    | some w =>
      rw [claimAfter_of_some us _ w hsc, hsc]; rfl
    | none =>
      have hstep : ModeB.stepClaim u s = s := by
        rw [ModeB.stepClaim]
        split
        · rename_i hcond
          exact absurd hsc (by rw [ModeB.stepClaim, if_pos hcond]; simp)
        · rfl
      rcases List.mem_cons.mp hv with rfl | hvtail
      · -- v = u would have matched: s.claim must be none (stepClaim left it
        -- none) and the ids agree, so the step would have set the claim
        exfalso
        have hsnone : s.claim = none := by rw [← hstep]; exact hsc
        have : ModeB.stepClaim v s = { s with claim := some v.2 } := by
          rw [ModeB.stepClaim, if_pos ⟨hveq.symm, by rw [hsnone]; rfl⟩]
        rw [hstep] at this
        have := congrArg ModeB.StoredDoc.claim this
        rw [hsnone] at this
        exact Option.noConfusion this
      · rw [hstep]
        exact ih s ⟨v, hvtail, hveq⟩

lemma claimAfter_isNone_mono {α : Type} (us : List (String × α))
    (s : ModeB.StoredDoc α)
    (h : ((ModeB.claimAfter s us).claim).isNone = true) :
    s.claim.isNone = true := by
  cases hsc : s.claim with
  | none => rfl
  | some w => rw [claimAfter_of_some us s w hsc, hsc] at h; exact absurd h (by simp)

lemma length_filter_map_le {β : Type} (f : β → β) (p : β → Bool)
    (hf : ∀ x, p (f x) = true → p x = true) :
    ∀ l : List β, ((l.map f).filter p).length ≤ (l.filter p).length := by
  intro l
  induction l with
  | nil => simp
  | cons y l ih =>
    rw [List.map_cons, List.filter_cons, List.filter_cons]
    by_cases hy : p (f y) = true
    · rw [if_pos hy, if_pos (hf y hy)]
      exact Nat.succ_le_succ ih
    · rw [if_neg hy]
      split
      · exact le_trans ih (Nat.le_succ _)
      · exact ih

lemma length_filter_map_lt {β : Type} (f : β → β) (p : β → Bool)
    (hf : ∀ x, p (f x) = true → p x = true) :
    ∀ (l : List β) (x : β), x ∈ l → p x = true → p (f x) = false →
      ((l.map f).filter p).length < (l.filter p).length := by
  intro l
  induction l with
  | nil => intro x hx; exact absurd hx (List.not_mem_nil x)
  | cons y l ih =>
    intro x hx hpx hpfx
    rw [List.map_cons, List.filter_cons, List.filter_cons]
    rcases List.mem_cons.mp hx with rfl | hxl
    · rw [if_neg (by rw [hpfx]; exact Bool.false_ne_true), if_pos hpx]
      exact Nat.lt_succ_of_le (length_filter_map_le f p hf l)
    · by_cases hy : p (f y) = true
      · rw [if_pos hy, if_pos (hf y hy)]
        exact Nat.succ_lt_succ (ih x hxl hpx hpfx)
      · rw [if_neg hy]
        split
        · exact Nat.lt_succ_of_lt (ih x hxl hpx hpfx)
        · exact ih x hxl hpx hpfx

lemma runIteration_claims {α : Type} (processFn : ModeB.Document → α)
    (cutoff : Option Int) (bs : Nat) (st : List (ModeB.StoredDoc α))
    (hpage : ModeB.runFind st cutoff bs ≠ []) :
    (∀ t ∈ ModeB.bulkWrite st
        ((ModeB.runFind st cutoff bs).map
          (fun d => (ModeB.taskBody processFn d).1)),
      (∃ d ∈ ModeB.runFind st cutoff bs, d.ID = t.doc.ID) →
        (t.claim).isSome = true) ∧
    ModeB.claimlessCount
        (ModeB.bulkWrite st
          ((ModeB.runFind st cutoff bs).map
            (fun d => (ModeB.taskBody processFn d).1)))
      < ModeB.claimlessCount st := by
  set page := ModeB.runFind st cutoff bs with hpagedef
  set updates := page.map (fun d => (ModeB.taskBody processFn d).1) with hupd
  constructor
  · intro t ht hex
    rw [bulkWrite_map] at ht
    rcases List.mem_map.mp ht with ⟨s, hs, rfl⟩
    rcases hex with ⟨d, hd, hid⟩
    refine claimAfter_isSome_of_mem updates s ⟨(d.ID, processFn d), ?_, ?_⟩
    · exact List.mem_map.mpr ⟨d, hd, rfl⟩
    · rw [claimAfter_doc] at hid
      exact hid
  · rw [bulkWrite_map, ModeB.claimlessCount, ModeB.claimlessCount]
    -- witness: the stored document behind the head of the page
    have hF : (st.filter (fun s =>
        s.claim.isNone &&
          match cutoff with
          | some c => decide (s.doc.CreatedAt < c)
          | none => true)).take bs ≠ [] := by
      intro habs
      apply hpage
      rw [hpagedef, ModeB.runFind, habs]
      rfl
    set F := (st.filter (fun s =>
        s.claim.isNone &&
          match cutoff with
          | some c => decide (s.doc.CreatedAt < c)
          | none => true)).take bs with hFdef
    have hhead : F.head hF ∈ F := List.head_mem hF
    have hmemfil : F.head hF ∈ st.filter (fun s =>
        s.claim.isNone &&
          match cutoff with
          | some c => decide (s.doc.CreatedAt < c)
          | none => true) := List.take_subset _ _ hhead
    have hmem : F.head hF ∈ st := List.mem_of_mem_filter hmemfil
    have helig := (List.mem_filter.mp hmemfil).2
    have hnone : (F.head hF).claim.isNone = true := ((Bool.and_eq_true _ _).mp helig).1
    have hdocpage : (F.head hF).doc ∈ page := by
      rw [hpagedef, ModeB.runFind]
      exact List.mem_map.mpr ⟨F.head hF, hhead, rfl⟩
    have hsome : ((ModeB.claimAfter (F.head hF) updates).claim).isSome = true := by
      refine claimAfter_isSome_of_mem updates _ ⟨((F.head hF).doc.ID,
        processFn (F.head hF).doc), ?_, rfl⟩
      exact List.mem_map.mpr ⟨(F.head hF).doc, hdocpage, rfl⟩
    have hfnone : ((ModeB.claimAfter (F.head hF) updates).claim).isNone = false := by
      rcases Option.isSome_iff_exists.mp hsome with ⟨w, hw⟩
      rw [hw]
      rfl
    exact length_filter_map_lt (fun s => ModeB.claimAfter s updates)
      (fun s => s.claim.isNone) (fun x => claimAfter_isNone_mono updates x)
      st (F.head hF) hmem hnone hfnone

lemma runLoop_terminates {α : Type} (processFn : ModeB.Document → α)
    (cutoff : Option Int) (bs : Nat) :
    ∀ (fuel k : Nat) (store : List (ModeB.StoredDoc α)) (inv : Nat),
      ModeB.claimlessCount store + 1 ≤ fuel →
      ∃ store2 inv2,
        ModeB.runLoop processFn cutoff bs (fun _ => false) fuel k store inv
          = some (true, store2, inv2) ∧
        ModeB.runFind store2 cutoff bs = [] := by
  intro fuel
  induction fuel with
  | zero => intro k store inv h; omega
  | succ f ih =>
    intro k store inv h
    rw [ModeB.runLoop]
    simp only [Bool.false_eq_true, if_false]
    by_cases hpage : (ModeB.runFind store cutoff bs).isEmpty
    · rw [if_pos hpage]
      exact ⟨store, inv, rfl, List.isEmpty_iff.mp hpage⟩
    · rw [if_neg hpage]
      have hne : ModeB.runFind store cutoff bs ≠ [] := by
        intro habs; exact hpage (by rw [habs]; rfl)
      have hlt := (runIteration_claims processFn cutoff bs store hne).2
      exact ih (k + 1) _ _ (by omega)

/-- C10: over a collection modified only by the driver's claim writes, with
the token never cancelled and every find and bulk write succeeding: (i) each
`Run` iteration that fetches a non-empty page ends with every document of
that page carrying a claim, and strictly decreases the number of claim-less
documents; so (ii) `Run` terminates, returning nil (`true`) once a fetch
returns an empty page, at which point no eligible claim-less document
remains; and (iii) a second `Run` over the same collection processes zero
documents (zero user-callable invocations, store unchanged). -/
theorem run_claim_protocol_terminates (α : Type)
    (processFn : ModeB.Document → α) (cutoff : Option Int) (batchSize : Int)
    (store : List (ModeB.StoredDoc α)) (fuel : Nat)
    (hnd : (store.map fun s => s.doc.ID).Nodup)
    (hfuel : ModeB.claimlessCount store + 1 ≤ fuel) :
    (∀ st : List (ModeB.StoredDoc α),
      ModeB.runFind st cutoff (ModeB.effectiveBatchSize batchSize) ≠ [] →
      (∀ t ∈ ModeB.bulkWrite st
          ((ModeB.runFind st cutoff (ModeB.effectiveBatchSize batchSize)).map
            (fun d => (ModeB.taskBody processFn d).1)),
        (∃ d ∈ ModeB.runFind st cutoff (ModeB.effectiveBatchSize batchSize),
          d.ID = t.doc.ID) → (t.claim).isSome = true) ∧
      ModeB.claimlessCount (ModeB.bulkWrite st
          ((ModeB.runFind st cutoff (ModeB.effectiveBatchSize batchSize)).map
            (fun d => (ModeB.taskBody processFn d).1)))
        < ModeB.claimlessCount st) ∧
    ∃ store2 inv2,
      ModeB.Run processFn cutoff batchSize (fun _ => false) store fuel
          = some (true, store2, inv2) ∧
      ModeB.runFind store2 cutoff (ModeB.effectiveBatchSize batchSize) = [] ∧
      ∀ fuel2 : Nat,
        ModeB.Run processFn cutoff batchSize (fun _ => false) store2 (fuel2 + 1)
          = some (true, store2, 0) := by
  refine ⟨fun st hne => runIteration_claims processFn cutoff _ st hne, ?_⟩
  rcases runLoop_terminates processFn cutoff (ModeB.effectiveBatchSize batchSize)
    fuel 0 store 0 hfuel with ⟨store2, inv2, hrun, hempty⟩
  refine ⟨store2, inv2, ?_, hempty, fun fuel2 => ?_⟩
  · rw [ModeB.Run]; exact hrun
  · rw [ModeB.Run, ModeB.runLoop]
    simp only [Bool.false_eq_true, if_false]
    rw [if_pos (by rw [hempty]; rfl)]

/-- C10 witness: a one-document claim-less collection; `Run` claims it,
terminates with nil, and a second `Run` processes zero documents. -/
theorem run_claim_protocol_terminates_witness :
    ∃ store2 inv2,
      ModeB.Run (fun _ => (5 : Nat)) none 1 (fun _ => false)
          [⟨⟨"a", 0, ""⟩, none⟩] 2 = some (true, store2, inv2) ∧
      ModeB.runFind store2 none (ModeB.effectiveBatchSize 1) = [] ∧
      ∀ fuel2 : Nat,
        ModeB.Run (fun _ => (5 : Nat)) none 1 (fun _ => false) store2 (fuel2 + 1)
          = some (true, store2, 0) :=
  (run_claim_protocol_terminates Nat (fun _ => 5) none 1
    [⟨⟨"a", 0, ""⟩, none⟩] 2 (by decide) (by decide)).2

/-! Mode A submission-protocol lemmas -/

lemma pbLoop_subs_invariant
    (fetch : Bool → Int → Nat → Except String (List ModeA.Document))
    (bs : Nat) (accept : Nat → Bool) :
    ∀ (fuel : Nat) (fb : Bool) (lt : Int) (li k total : Nat)
      (subs : List (List ModeA.Document × Tasker.RetryPolicy)),
      (∀ q ∈ subs, q.2 = ModeA.pagePolicy) →
      total = ((subs.map fun q => q.1.length).sum) →
      (∀ q ∈ (ModeA.pbLoop fetch bs accept fuel fb lt li k total subs).2.1,
        q.2 = ModeA.pagePolicy) ∧
      (ModeA.pbLoop fetch bs accept fuel fb lt li k total subs).1 =
        (((ModeA.pbLoop fetch bs accept fuel fb lt li k total subs).2.1.map
          fun q => q.1.length).sum) := by
  intro fuel
  induction fuel with
  | zero => intro fb lt li k total subs hp hs; exact ⟨hp, hs⟩
  | succ f ih =>
    intro fb lt li k total subs hp hs
    rw [ModeA.pbLoop]
    cases hfetch : fetch fb lt li with
    | error e => exact ⟨hp, hs⟩
    | ok batch =>
      dsimp only
      by_cases hempty : batch.isEmpty
      · rw [if_pos hempty]
        exact ⟨hp, hs⟩
      · rw [if_neg hempty]
        by_cases hacc : accept k
        · simp only [hacc, if_true]
          have hp2 : ∀ q ∈ subs ++ [(batch, ModeA.pagePolicy)],
              q.2 = ModeA.pagePolicy := by
            intro q hq
            rcases List.mem_append.mp hq with h1 | h2
            · exact hp q h1
            · rw [List.mem_singleton.mp h2]
          have hs2 : total + batch.length =
              (((subs ++ [(batch, ModeA.pagePolicy)]).map
                fun q => q.1.length).sum) := by
            rw [List.map_append, List.sum_append, ← hs]
            simp
          by_cases hlen : batch.length < bs
          · rw [if_pos hlen]
            exact ⟨hp2, hs2⟩
          · rw [if_neg hlen]
            exact ih false _ _ (k + 1) _ _ hp2 hs2
        · simp only [hacc, if_false]
          exact ⟨hp, hs⟩

/-- C8: Mode A hands each fetched page to the scheduler as one task with
`MaxAttempts = 1` (the page policy), counts a page only after a successful
hand-off (the returned total is always the summed length of the accepted
pages), and when a `Submit` is rejected mid-sweep the loop breaks
immediately, returning the accumulated count with a nil error. -/
theorem processBefore_submission_protocol :
    ModeA.pagePolicy.MaxAttempts = 1 ∧
    (∀ (coll : List ModeA.Document) (cutoff batchSize : Int)
      (accept : Nat → Bool),
      (∀ q ∈ (ModeA.ProcessBefore coll cutoff batchSize accept).2.1,
        q.2 = ModeA.pagePolicy) ∧
      (ModeA.ProcessBefore coll cutoff batchSize accept).1 =
        (((ModeA.ProcessBefore coll cutoff batchSize accept).2.1.map
          fun q => q.1.length).sum)) ∧
    (∀ (fetch : Bool → Int → Nat → Except String (List ModeA.Document))
      (bs : Nat) (accept : Nat → Bool) (fuel : Nat) (fb : Bool) (lt : Int)
      (li k total : Nat) (subs : List (List ModeA.Document × Tasker.RetryPolicy))
      (batch : List ModeA.Document),
      fetch fb lt li = Except.ok batch → batch ≠ [] → accept k = false →
      ModeA.pbLoop fetch bs accept (fuel + 1) fb lt li k total subs
        = (total, subs, none)) := by
  refine ⟨rfl, fun coll cutoff batchSize accept => ?_, ?_⟩
  · exact pbLoop_subs_invariant _ _ accept _ true 0 0 0 0 []
      (fun q hq => absurd hq (List.not_mem_nil q)) rfl
  · intro fetch bs accept fuel fb lt li k total subs batch hfetch hne hacc
    rw [ModeA.pbLoop, hfetch]
    dsimp only
    rw [if_neg (by rw [List.isEmpty_iff]; exact hne)]
    simp only [hacc]
    rfl

/-- C8 witness: one fetched non-empty page whose submission is rejected —
the sweep returns the running count unchanged with a nil error. -/
theorem processBefore_submission_protocol_witness :
    ModeA.pbLoop (fun _ _ _ => Except.ok [⟨1, 0, ""⟩]) 1 (fun _ => false)
        1 true 0 0 0 0 [] = (0, [], none) :=
  processBefore_submission_protocol.2.2 (fun _ _ _ => Except.ok [⟨1, 0, ""⟩])
    1 (fun _ => false) 0 true 0 0 0 0 [] [⟨1, 0, ""⟩] rfl (by decide) rfl

/-! Mode A ordering and pagination lemmas -/

lemma before_irrefl (p : ModeA.Document) : ¬ ModeA.before p p := by
  rw [ModeA.before]; omega

lemma before_asymm (a b : ModeA.Document) (h : ModeA.before a b) :
    ¬ ModeA.before b a := by
  rw [ModeA.before] at h ⊢; omega

instance : IsAntisymm ModeA.Document ModeA.before :=
  ⟨fun a b h1 h2 => absurd h2 (before_asymm a b h1)⟩

lemma descLe_trans (a b c : ModeA.Document) (h1 : ModeA.descLe a b = true)
    (h2 : ModeA.descLe b c = true) : ModeA.descLe a c = true := by
  rw [ModeA.descLe] at h1 h2 ⊢
  simp only [Bool.or_eq_true, Bool.and_eq_true, decide_eq_true_eq] at h1 h2 ⊢
  omega

lemma descLe_total (a b : ModeA.Document) :
    (ModeA.descLe a b || ModeA.descLe b a) = true := by
  rw [ModeA.descLe, ModeA.descLe]
  simp only [Bool.or_eq_true, Bool.and_eq_true, decide_eq_true_eq]
  omega

lemma sortDesc_perm (l : List ModeA.Document) : (ModeA.sortDesc l).Perm l :=
  List.mergeSort_perm l ModeA.descLe

lemma sortDesc_sorted (l : List ModeA.Document) :
    (ModeA.sortDesc l).Pairwise (fun a b => ModeA.descLe a b = true) :=
  List.sorted_mergeSort descLe_trans descLe_total l

lemma sortDesc_pairwise_before (l : List ModeA.Document)
    (h : (l.map fun d => d.ID).Nodup) :
    (ModeA.sortDesc l).Pairwise ModeA.before := by
  have hperm : ((ModeA.sortDesc l).map fun d => d.ID).Perm
      (l.map fun d => d.ID) := (sortDesc_perm l).map _
  have hnd : ((ModeA.sortDesc l).map fun d => d.ID).Nodup := hperm.nodup_iff.mpr h
  have hne : (ModeA.sortDesc l).Pairwise (fun a b => a.ID ≠ b.ID) :=
    List.pairwise_map.mp hnd
  refine ((sortDesc_sorted l).and hne).imp ?_
  rintro a b ⟨hle, hne2⟩
  rw [ModeA.descLe] at hle
  simp only [Bool.or_eq_true, Bool.and_eq_true, decide_eq_true_eq] at hle
  rw [ModeA.before]
  rcases hle with h1 | ⟨h1, h2⟩
  · exact Or.inl h1
  · exact Or.inr ⟨h1, lt_of_le_of_ne h2 (fun he => hne2 he.symm)⟩

lemma getLastD_eq_getLast {β : Type} (l : List β) (d : β) (h : l ≠ []) :
    l.getLastD d = l.getLast h := by
  rw [List.getLastD_eq_getLast?, List.getLast?_eq_getLast l h]
  rfl

lemma pairwise_before_getLast :
    ∀ (P : List ModeA.Document) (h : P ≠ []) (hp : P.Pairwise ModeA.before)
      (a : ModeA.Document), a ∈ P →
      a = P.getLast h ∨ ModeA.before a (P.getLast h) := by
  intro P
  induction P with
  | nil => intro h; exact absurd rfl h
  | cons x rest ih =>
    intro h hp a ha
    cases rest with
    | nil =>
      rw [List.mem_singleton.mp ha]
      exact Or.inl rfl
    | cons y t =>
      have hrest : (y :: t) ≠ [] := by simp
      have hlast : (x :: y :: t).getLast h = (y :: t).getLast hrest := by
        rw [List.getLast_cons hrest]
      rcases List.mem_cons.mp ha with rfl | hmem
      · refine Or.inr ?_
        rw [hlast]
        exact (List.pairwise_cons.mp hp).1 _ (List.getLast_mem hrest)
      · rw [hlast]
        exact ih hrest (List.pairwise_cons.mp hp).2 a hmem

lemma sorted_filter_after_last (P R : List ModeA.Document)
    (hp : (P ++ R).Pairwise ModeA.before) (hne : P ≠ []) :
    (P ++ R).filter (fun d => decide (ModeA.before (P.getLast hne) d)) = R := by
  rw [List.filter_append]
  have hPR := List.pairwise_append.mp hp
  have h1 : P.filter (fun d => decide (ModeA.before (P.getLast hne) d)) = [] := by
    rw [List.filter_eq_nil_iff]
    intro a ha
    simp only [decide_eq_true_eq]
    rcases pairwise_before_getLast P hne hPR.1 a ha with rfl | hbef
    · exact before_irrefl _
    · exact before_asymm a _ hbef
  have h2 : R.filter (fun d => decide (ModeA.before (P.getLast hne) d)) = R := by
    rw [List.filter_eq_self]
    intro a ha
    simp only [decide_eq_true_eq]
    exact hPR.2.2 _ (List.getLast_mem hne) a ha
  rw [h1, h2, List.nil_append]

lemma fetch_next_eq_filter (coll : List ModeA.Document)
    (hnd : (coll.map fun d => d.ID).Nodup) (cutoff : Int) (p : ModeA.Document)
    (hp : p.CreatedAt < cutoff) :
    ModeA.sortDesc (coll.filter fun d => decide (ModeA.before p d))
      = (ModeA.sortDesc (coll.filter fun d =>
          decide (d.CreatedAt < cutoff))).filter
          (fun d => decide (ModeA.before p d)) := by
  have hndfil : ∀ (q : ModeA.Document → Bool),
      ((coll.filter q).map fun d => d.ID).Nodup := by
    intro q
    exact ((List.filter_sublist coll).map _).nodup hnd
  refine List.eq_of_perm_of_sorted ?_
    (sortDesc_pairwise_before _ (hndfil _))
    (List.Pairwise.filter _ (sortDesc_pairwise_before _ (hndfil _)))
  have hsplit : coll.filter (fun d => decide (ModeA.before p d))
      = (coll.filter fun d => decide (d.CreatedAt < cutoff)).filter
          (fun d => decide (ModeA.before p d)) := by
    rw [List.filter_filter]
    refine List.filter_congr ?_
    intro d _
    by_cases hb : ModeA.before p d
    · have hcut : d.CreatedAt < cutoff := by
        rw [ModeA.before] at hb
        omega
      simp [hb, hcut]
    · simp [hb]
  have hstep : (coll.filter fun d => decide (ModeA.before p d)).Perm
      ((ModeA.sortDesc (coll.filter fun d =>
        decide (d.CreatedAt < cutoff))).filter
        (fun d => decide (ModeA.before p d))) := by
    rw [hsplit]
    exact List.Perm.filter _ (sortDesc_perm _).symm
  exact (sortDesc_perm _).trans hstep

lemma pbLoop_pagination (coll : List ModeA.Document)
    (hnd : (coll.map fun d => d.ID).Nodup) (cutoff : Int) (bs : Nat)
    (hbs : 1 ≤ bs) (S : List ModeA.Document)
    (hS : S = ModeA.sortDesc (coll.filter fun d => decide (d.CreatedAt < cutoff))) :
    ∀ (fuel : Nat) (fb : Bool) (lt : Int) (li k total : Nat)
      (subs : List (List ModeA.Document × Tasker.RetryPolicy)),
      total ≤ S.length →
      (subs.map Prod.fst).flatten = S.take total →
      (fb = true → total = 0) →
      (fb = false → ∃ h : S.take total ≠ [],
        lt = ((S.take total).getLast h).CreatedAt ∧
        li = ((S.take total).getLast h).ID) →
      (∀ q ∈ subs, q.1 ≠ [] ∧ q.1.length ≤ bs) →
      S.length - total + 1 ≤ fuel →
      ∃ subsF,
        ModeA.pbLoop
          (fun fbb ltt lii =>
            .ok (ModeA.fetchBatch coll cutoff ltt lii fbb bs))
          bs (fun _ => true) fuel fb lt li k total subs
          = (S.length, subsF, none) ∧
        ((subsF.map Prod.fst).flatten = S) ∧
        (∀ q ∈ subsF, q.1 ≠ [] ∧ q.1.length ≤ bs) := by
  have hSpair : S.Pairwise ModeA.before := by
    rw [hS]
    exact sortDesc_pairwise_before _
      (((List.filter_sublist coll).map _).nodup hnd)
  have hSperm : S.Perm (coll.filter fun d => decide (d.CreatedAt < cutoff)) := by
    rw [hS]; exact sortDesc_perm _
  intro fuel
  induction fuel with
  | zero => intro fb lt li k total subs _ _ _ _ _ hfuel; omega
  | succ f ih =>
    intro fb lt li k total subs htot hjoin hfb hcur hpages hfuel
    have hbatch : ModeA.fetchBatch coll cutoff lt li fb bs
        = (S.drop total).take bs := by
      cases fb with
      | true =>
        have htotal0 : total = 0 := hfb rfl
        rw [ModeA.fetchBatch, if_pos rfl, ModeA.find, ← hS, htotal0,
          List.drop_zero]
      | false =>
        rcases hcur rfl with ⟨hPne, hlt, hli⟩
        set p := (S.take total).getLast hPne with hpdef
        have hfil : (coll.filter fun d =>
            decide (d.CreatedAt < lt) ||
              (decide (d.CreatedAt = lt) && decide (d.ID < li)))
            = coll.filter (fun d => decide (ModeA.before p d)) := by
          refine List.filter_congr ?_
          intro d _
          rw [hlt, hli]
          by_cases h1 : d.CreatedAt < p.CreatedAt
          · simp [ModeA.before, h1]
          · by_cases h2 : d.CreatedAt = p.CreatedAt
            · by_cases h3 : d.ID < p.ID
              · simp [ModeA.before, h1, h2, h3]
              · simp [ModeA.before, h1, h2, h3]
            · simp [ModeA.before, h1, h2]
        have hpS : p ∈ S := List.take_subset _ _ (List.getLast_mem hPne)
        have hpcut : p.CreatedAt < cutoff := by
          have := List.mem_filter.mp (hSperm.mem_iff.mp hpS)
          exact of_decide_eq_true this.2
        have hdropfil : S.filter (fun d => decide (ModeA.before p d))
            = S.drop total := by
          have := sorted_filter_after_last (S.take total) (S.drop total)
            (by rw [List.take_append_drop]; exact hSpair) hPne
          rw [List.take_append_drop] at this
          exact this
        rw [ModeA.fetchBatch, if_neg (by simp), ModeA.find, hfil,
          fetch_next_eq_filter coll hnd cutoff p hpcut, ← hS, hdropfil]
    rw [ModeA.pbLoop]
    dsimp only
    rw [hbatch]
    set B := (S.drop total).take bs with hBdef
    by_cases hBe : B.isEmpty
    · rw [if_pos hBe]
      have hdropnil : S.drop total = [] := by
        rcases List.take_eq_nil_iff.mp (List.isEmpty_iff.mp hBe) with h0 | hnil
        · omega
        · exact hnil
      have htoteq : total = S.length := by
        have := List.drop_eq_nil_iff.mp hdropnil
        omega
      refine ⟨subs, ?_, ?_, hpages⟩
      · rw [htoteq]
      · rw [htoteq] at hjoin
        rwa [List.take_length] at hjoin
    · rw [if_neg hBe]
      rw [if_pos rfl]
      have hBne : B ≠ [] := by
        intro habs; rw [habs] at hBe; exact absurd hBe (by decide)
      have hBlen : B.length = min bs (S.length - total) := by
        rw [hBdef, List.length_take, List.length_drop]
      have hBtake : (S.drop total).take B.length = B := by
        rw [hBdef]
        refine List.take_eq_take.mpr ?_
        rw [List.length_take, min_assoc, min_self]
      have hjoin2 : (((subs ++ [(B, ModeA.pagePolicy)]).map Prod.fst).flatten)
          = S.take (total + B.length) := by
        rw [List.map_append, List.flatten_append, hjoin, List.take_add, hBtake]
        simp
      have hpages2 : ∀ q ∈ subs ++ [(B, ModeA.pagePolicy)],
          q.1 ≠ [] ∧ q.1.length ≤ bs := by
        intro q hq
        rcases List.mem_append.mp hq with h1 | h2
        · exact hpages q h1
        · rw [List.mem_singleton.mp h2]
          refine ⟨hBne, ?_⟩
          rw [hBlen]
          exact min_le_left _ _
      by_cases hlen : B.length < bs
      · rw [if_pos hlen]
        have hxlt : S.length - total ≤ bs := by
          by_contra hcon
          push_neg at hcon
          rw [hBlen, min_eq_left hcon.le] at hlen
          omega
        have hBrest : B.length = S.length - total := by
          rw [hBlen, min_eq_right hxlt]
        have htoteq : total + B.length = S.length := by omega
        refine ⟨subs ++ [(B, ModeA.pagePolicy)], ?_, ?_, hpages2⟩
        · rw [htoteq]
        · rw [hjoin2, htoteq, List.take_length]
      · rw [if_neg hlen]
        have hBbs : B.length = bs :=
          le_antisymm (hBlen ▸ min_le_left _ _) (not_lt.mp hlen)
        have hbsle : bs ≤ S.length - total := by
          by_contra hcon
          push_neg at hcon
          rw [hBlen, min_eq_right hcon.le] at hBbs
          omega
        have htake2 : S.take (total + B.length) = S.take total ++ B := by
          rw [List.take_add, hBtake]
        have hne2 : S.take (total + B.length) ≠ [] := by
          rw [htake2]
          intro habs
          exact hBne (List.append_eq_nil.mp habs).2
        have hlast2 : (S.take (total + B.length)).getLast hne2
            = B.getLast hBne := by
          have hx : (S.take total ++ B).getLast
              (by intro habs; exact hBne (List.append_eq_nil.mp habs).2)
              = B.getLast hBne := by
            rw [List.getLast_append]
            rw [dif_neg (by rw [List.isEmpty_iff]; exact hBne)]
          calc (S.take (total + B.length)).getLast hne2
              = (S.take total ++ B).getLast (htake2 ▸ hne2) := by
                congr 1
            _ = B.getLast hBne := hx
        have hgld : B.getLastD ⟨0, 0, ""⟩ = B.getLast hBne :=
          getLastD_eq_getLast B _ hBne
        rw [hgld]
        refine ih false (B.getLast hBne).CreatedAt (B.getLast hBne).ID (k + 1)
          (total + B.length) (subs ++ [(B, ModeA.pagePolicy)]) (by omega)
          hjoin2 (fun habs => absurd habs (by decide)) ?_ hpages2 (by omega)
        intro _
        exact ⟨hne2, by rw [hlast2], by rw [hlast2]⟩

/-- C1: Mode A pagination is exact.  Over any collection with distinct ids
and any cutoff, with the store's `find` per the interface contract and every
submission accepted, `ProcessBefore` dispatches exactly the documents with
`createdAt < cutoff`: the concatenation of the dispatched pages is precisely
the descending `(createdAt, _id)` sort of those documents (each document
exactly once — no duplicates, no gaps across page boundaries, even under
timestamp ties), partitioned into successive non-empty pages of at most the
effective page size, and the returned total is their count. -/
theorem processBefore_mode_a_pagination (coll : List ModeA.Document)
    (hnd : (coll.map fun d => d.ID).Nodup) (cutoff batchSize : Int) :
    (ModeA.ProcessBefore coll cutoff batchSize (fun _ => true)).1
        = (coll.filter fun d => decide (d.CreatedAt < cutoff)).length ∧
    (((ModeA.ProcessBefore coll cutoff batchSize (fun _ => true)).2.1.map
        Prod.fst).flatten
      = ModeA.sortDesc (coll.filter fun d => decide (d.CreatedAt < cutoff))) ∧
    (∀ q ∈ (ModeA.ProcessBefore coll cutoff batchSize (fun _ => true)).2.1,
      q.1 ≠ [] ∧ q.1.length ≤ ModeA.effectiveBatchSize batchSize) ∧
    (ModeA.ProcessBefore coll cutoff batchSize (fun _ => true)).2.2 = none := by
  have hbs : 1 ≤ ModeA.effectiveBatchSize batchSize := by
    rw [ModeA.effectiveBatchSize]
    split
    · omega
    · rename_i h
      push_neg at h
      omega
  set S := ModeA.sortDesc (coll.filter fun d => decide (d.CreatedAt < cutoff))
    with hS
  have hSlen : S.length
      = (coll.filter fun d => decide (d.CreatedAt < cutoff)).length := by
    rw [hS]
    exact (sortDesc_perm _).length_eq
  have hlen : S.length ≤ coll.length := by
    rw [hSlen]
    exact List.length_filter_le _ _
  rcases pbLoop_pagination coll hnd cutoff (ModeA.effectiveBatchSize batchSize)
      hbs S hS (coll.length + 1) true 0 0 0 0 []
      (Nat.zero_le _) (by simp) (fun _ => rfl)
      (fun habs => absurd habs (by decide))
      (fun q hq => absurd hq (List.not_mem_nil q)) (by omega)
    with ⟨subsF, hrun, hflat, hq⟩
  rw [ModeA.ProcessBefore, hrun]
  exact ⟨hSlen.symm ▸ rfl, hflat, hq, rfl⟩

/-- C1 witness: three documents, two sharing a timestamp below the cutoff,
page size 1 — the sweep dispatches both eligible documents across two pages
in descending `(createdAt, _id)` order with no duplicate and returns 2. -/
theorem processBefore_mode_a_pagination_witness :
    (ModeA.ProcessBefore ([⟨1, 5, "x"⟩, ⟨2, 5, "y"⟩, ⟨3, 9, "z"⟩] : List ModeA.Document) 7 1
        (fun _ => true)).1
      = (([⟨1, 5, "x"⟩, ⟨2, 5, "y"⟩, ⟨3, 9, "z"⟩] : List ModeA.Document).filter
          fun d => decide (d.CreatedAt < 7)).length ∧
    (((ModeA.ProcessBefore ([⟨1, 5, "x"⟩, ⟨2, 5, "y"⟩, ⟨3, 9, "z"⟩] : List ModeA.Document) 7 1
        (fun _ => true)).2.1.map Prod.fst).flatten
      = ModeA.sortDesc (([⟨1, 5, "x"⟩, ⟨2, 5, "y"⟩, ⟨3, 9, "z"⟩] : List ModeA.Document).filter
          fun d => decide (d.CreatedAt < 7))) ∧
    (∀ q ∈ (ModeA.ProcessBefore ([⟨1, 5, "x"⟩, ⟨2, 5, "y"⟩, ⟨3, 9, "z"⟩] : List ModeA.Document) 7 1
        (fun _ => true)).2.1,
      q.1 ≠ [] ∧ q.1.length ≤ ModeA.effectiveBatchSize 1) ∧
    (ModeA.ProcessBefore ([⟨1, 5, "x"⟩, ⟨2, 5, "y"⟩, ⟨3, 9, "z"⟩] : List ModeA.Document) 7 1
        (fun _ => true)).2.2 = none :=
  processBefore_mode_a_pagination ([⟨1, 5, "x"⟩, ⟨2, 5, "y"⟩, ⟨3, 9, "z"⟩] : List ModeA.Document)
    (by decide) 7 1
